import Mathlib

/-!
Verification development for the mbed `Ticker` driver
(`src/drivers/Ticker.h` of this repository).

The header under `src/` contains the class interface, the inline bodies of
`attach` (seconds), the deprecated member-function overloads, and the
destructor.  The out-of-line bodies (`attach_us`, `detach`, `setup`,
`handler`, the constructors) are declared but not present under `src/`;
those operations are modelled from the specification's words (their doc
comments say so explicitly).

Machine types: `us_timestamp_t` (unsigned 64-bit microseconds) is modelled
as `ℕ`; the specification describes the next fire time as `now + delay`
with no wrap-around discussion, so plain natural addition is used.  The C++
`float` of `attach` is modelled exactly: a `float` value is a rational
number, and single-precision arithmetic is round-to-nearest-even at 24
significant bits (`rnd24`), the IEEE-754 binary32 rule; the exponent range
is left unbounded, which coincides with binary32 on the normal finite
range relevant to every concrete value used here.
-/

/-- Opaque zero-argument callable (`Callback<void()>`): either a bound
plain-function value or an object pointer paired with a member-function
pointer, identified by opaque tokens. -/
inductive Callback where
  | fn (id : ℕ)
  | member (obj meth : ℕ)
deriving DecidableEq, Repr

/-- The `mbed::callback(obj, method)` factory: binds an object pointer and a
member-function pointer into the opaque callable form. -/
def callback (obj meth : ℕ) : Callback := Callback.member obj meth

/-- State of one `Ticker` instance, including the scheduling state it
inherits from `TimerEvent` (`pending`: the absolute fire time of this
instance's pending hardware alarm, if any) and the deep-sleep lock held on
its behalf. -/
structure TickerState where
  /-- `_delay`: time delay in microseconds for resetting the multishot callback. -/
  delay : ℕ
  /-- `_function`: the stored callback; `none` models the empty callable. -/
  function : Option Callback
  /-- `_lock_deepsleep`: whether arming this ticker must disable deep sleep
  (true for the regular tick source, false for the low-power one). -/
  lock_deepsleep : Bool
  /-- TimerEvent linkage: absolute fire time while inserted in the
  hardware's pending-alarm structure (at most one slot per instance). -/
  pending : Option ℕ
  /-- Whether a deep-sleep lock is currently held on this instance's behalf. -/
  deepsleepLocked : Bool
deriving DecidableEq, Repr

/-- Modelled from the spec: the `Ticker` constructor bodies are not under
`src/`.  A ticker starts disarmed (`function` empty, no pending alarm, no
deep-sleep lock held); per the header comment "When low power ticker is in
use, then do not disable deep sleep", the regular (default) source sets
`lock_deepsleep` and the low-power source does not. -/
def Ticker.init (lowPower : Bool) : TickerState :=
  { delay := 0, function := none, lock_deepsleep := !lowPower,
    pending := none, deepsleepLocked := false }

/-- TimerEvent primitive (contract only, spec §4.2): remove this event from
the hardware's pending-alarm structure; no-op if not present. -/
def TimerEvent.remove (s : TickerState) : TickerState :=
  { s with pending := none }

/-- TimerEvent primitive (contract only, spec §4.2): insert this event into
the hardware's pending-alarm structure at absolute time `T`. -/
def TimerEvent.insert_absolute (s : TickerState) (T : ℕ) : TickerState :=
  { s with pending := some T }

/-- Modelled from the spec: the body of `Ticker::attach_us` is not under
`src/`.  Stores the callable into `function` (replacing any prior
callback), stores the interval into `delay`, acquires the deep-sleep lock
when arming on the regular source (saturating: keeps it if already held),
computes `next_fire = now + delay` from the tick source, and (re)inserts
this instance at `next_fire`, removing any previous pending insertion
first. -/
def Ticker.attach_us (s : TickerState) (func : Callback) (t now : ℕ) : TickerState :=
  let s1 : TickerState :=
    { s with function := some func, delay := t,
             deepsleepLocked := s.deepsleepLocked || s.lock_deepsleep }
  TimerEvent.insert_absolute (TimerEvent.remove s1) (now + t)

/-- Modelled from the spec: the body of `Ticker::detach` is not under
`src/`.  Removes this instance's pending alarm (no-op if not pending),
releases the stored callable, and releases any deep-sleep lock acquired on
its behalf.  The returned boolean reports whether a deep-sleep unlock was
actually performed (a release happens only when a lock was held, so no
double-release is possible). -/
def Ticker.detach (s : TickerState) : TickerState × Bool :=
  ({ TimerEvent.remove s with function := none, deepsleepLocked := false },
   s.deepsleepLocked)

/-- Destructor, from the source (`~Ticker() { detach(); }`,
`src/drivers/Ticker.h:140-143`): performs `detach` before the instance is
released; the result is the last state the hardware structures observe. -/
def Ticker.destruct (s : TickerState) : TickerState :=
  (Ticker.detach s).1

/-- Modelled from the spec: the body of `Ticker::handler` is not under
`src/`.  Invoked from interrupt dispatch after the hardware has removed the
event from the pending set.  If the stored callable is non-empty it first
re-arms the alarm for `now + delay` and only then invokes the callable (the
returned state is the one in force when the callable runs); if the callable
is empty (a race with a concurrent `detach`) it takes the re-arm skip /
no-op path and invokes nothing. -/
def Ticker.handler (s : TickerState) (now : ℕ) : TickerState × Option Callback :=
  match s.function with
  | none => (s, none)
  | some f => (TimerEvent.insert_absolute s (now + s.delay), some f)

/-- One externally triggered transition of a ticker: a user call to
`attach_us` or `detach`, the destructor, or a hardware fire at time `now`. -/
inductive Step where
  | attachUs (f : Callback) (t now : ℕ)
  | detach
  | destroy
  | fire (now : ℕ)
deriving DecidableEq, Repr

/-- Whether a step is an attach (stores a new callable). -/
def Step.isAttach : Step → Bool
  | Step.attachUs _ _ _ => true
  | _ => false

/-- Whether a step attaches the particular callable `cb`. -/
def Step.attaches (cb : Callback) : Step → Bool
  | Step.attachUs f _ _ => decide (f = cb)
  | _ => false

/-- Execute one step.  A hardware fire can only happen while a pending
alarm exists; the hardware removes the event from the pending set before
invoking the dispatch point (`TimerEvent` contract, spec §4.2), and then
`handler` runs.  The second component is the callable invoked by the step,
if any. -/
def TickerState.step (s : TickerState) : Step → TickerState × Option Callback
  | Step.attachUs f t now => (Ticker.attach_us s f t now, none)
  | Step.detach => ((Ticker.detach s).1, none)
  | Step.destroy => (Ticker.destruct s, none)
  | Step.fire now =>
      if s.pending.isSome then Ticker.handler (TimerEvent.remove s) now
      else (s, none)

/-- Run a list of steps from a state. -/
def TickerState.run : TickerState → List Step → TickerState
  | s, [] => s
  | s, e :: es => TickerState.run (TickerState.step s e).1 es

/-- The callables invoked along a list of steps, in order. -/
def TickerState.fires : TickerState → List Step → List Callback
  | _, [] => []
  | s, e :: es =>
      match (TickerState.step s e).2 with
      | none => TickerState.fires (TickerState.step s e).1 es
      | some f => f :: TickerState.fires (TickerState.step s e).1 es

/-- Truncation toward zero of a rational, as an integer: the C++ rule for
converting a floating-point value to an integer type. -/
def truncZ (q : ℚ) : ℤ :=
  if 0 ≤ q then ⌊q⌋ else -⌊-q⌋

/-- Round a rational to an integer, ties to even (the rounding applied to
the scaled significand in `rnd24`). -/
def rndHalfEven (m : ℚ) : ℤ :=
  if m - ⌊m⌋ < 1 / 2 then ⌊m⌋
  else if 1 / 2 < m - ⌊m⌋ then ⌊m⌋ + 1
  else if ⌊m⌋ % 2 = 0 then ⌊m⌋ else ⌊m⌋ + 1

/-- Round a rational to the nearest value with a 24-bit significand
(round-to-nearest, ties to even): the IEEE-754 binary32 rounding rule, with
the exponent range left unbounded (it coincides with binary32 on the normal
finite range, which covers every concrete value appearing here). -/
def rnd24 (q : ℚ) : ℚ :=
  if q = 0 then 0
  else
    let E : ℤ := Int.log 2 |q| - 23
    (if q < 0 then (-1 : ℚ) else 1) * rndHalfEven (|q| / 2 ^ E) * 2 ^ E

/-- A rational is representable as a single-precision `float` value when
rounding fixes it. -/
def Float32Repr (q : ℚ) : Prop := rnd24 q = q

/-- Single-precision multiplication: the exact product, rounded. -/
def mulF32 (x y : ℚ) : ℚ := rnd24 (x * y)

/-- C++ conversion of a `float` value to `us_timestamp_t` (`uint64_t`):
truncation toward zero; undefined behaviour (modelled as `none`) when the
truncated value is not representable in the destination type. -/
def toUs (q : ℚ) : Option ℕ :=
  if 0 ≤ truncZ q ∧ truncZ q < 2 ^ 64 then some (truncZ q).toNat else none

/-- The seconds-granularity `attach`, from the source
(`src/drivers/Ticker.h:86-90`): its body is
`attach_us(std::forward<F>(func), t * 1000000.0f)`, i.e. it multiplies the
`float` argument by `1000000.0f` in single precision, converts the product
to `us_timestamp_t`, and forwards the callable unchanged to `attach_us`.
`none` models the undefined conversion of an out-of-range product. -/
def Ticker.attach (s : TickerState) (func : Callback) (t : ℚ) (now : ℕ) :
    Option TickerState :=
  (toUs (mulF32 t 1000000)).map (fun us => Ticker.attach_us s func us now)

/-- Deprecated member-function overload of `attach`, from the source
(`src/drivers/Ticker.h:101-108`): its body is
`attach(callback(obj, method), t)`. -/
def Ticker.attach_member (s : TickerState) (obj meth : ℕ) (t : ℚ) (now : ℕ) :
    Option TickerState :=
  Ticker.attach s (callback obj meth) t now

/-- Deprecated member-function overload of `attach_us`, from the source
(`src/drivers/Ticker.h:131-138`): its body is
`attach_us(Callback<void()>(obj, method), t)`. -/
def Ticker.attach_us_member (s : TickerState) (obj meth : ℕ) (t now : ℕ) :
    TickerState :=
  Ticker.attach_us s (Callback.member obj meth) t now

/-- Reachability between ticker states by any sequence of user calls
(`attach_us`, `detach`, destruction, hardware fires) and seconds-based
`attach` calls whose conversion is defined. -/
inductive Reaches : TickerState → TickerState → Prop where
  | refl (s : TickerState) : Reaches s s
  | step (s1 s2 : TickerState) (e : Step) :
      Reaches s1 s2 → Reaches s1 (TickerState.step s2 e).1
  | attachSeconds (s1 s2 s3 : TickerState) (f : Callback) (t : ℚ) (now : ℕ) :
      Reaches s1 s2 → Ticker.attach s2 f t now = some s3 → Reaches s1 s3

/-- A ticker whose pending alarm and callable are both cleared invokes
nothing along any sequence of steps that contains no attach. -/
theorem fires_nil_of_cleared (es : List Step) : ∀ s : TickerState,
    s.pending = none → s.function = none →
    (∀ e ∈ es, Step.isAttach e = false) → TickerState.fires s es = [] := by
  induction es with
  | nil => intro s _ _ _; rfl
  | cons e es ih =>
    intro s hp hf hA
    have hAe : Step.isAttach e = false := hA e (List.mem_cons_self e es)
    have hAes : ∀ x ∈ es, Step.isAttach x = false :=
      fun x hx => hA x (List.mem_cons_of_mem e hx)
    cases e with
    | attachUs f t now => simp [Step.isAttach] at hAe
    | detach =>
      simp only [TickerState.fires, TickerState.step]
      exact ih _ rfl rfl hAes
    | destroy =>
      simp only [TickerState.fires, TickerState.step]
      exact ih _ rfl rfl hAes
    | fire now =>
      simp only [TickerState.fires, TickerState.step, hp, Option.isSome_none,
        Bool.false_eq_true, if_false]
      exact ih _ hp hf hAes

/-- A callable that is not currently stored is never invoked along any
sequence of steps that never attaches it. -/
theorem not_mem_fires (cb : Callback) (es : List Step) : ∀ s : TickerState,
    s.function ≠ some cb →
    (∀ e ∈ es, Step.attaches cb e = false) →
    cb ∉ TickerState.fires s es := by
  induction es with
  | nil => intro s _ _; simp [TickerState.fires]
  | cons e es ih =>
    intro s hf hA
    have hAe : Step.attaches cb e = false := hA e (List.mem_cons_self e es)
    have hAes : ∀ x ∈ es, Step.attaches cb x = false :=
      fun x hx => hA x (List.mem_cons_of_mem e hx)
    cases e with
    | attachUs f t now =>
      have hfcb : f ≠ cb := by
        simpa [Step.attaches] using hAe
      simp only [TickerState.fires, TickerState.step]
      refine ih _ ?_ hAes
      simp [Ticker.attach_us, TimerEvent.insert_absolute, TimerEvent.remove, hfcb]
    | detach =>
      simp only [TickerState.fires, TickerState.step]
      refine ih _ ?_ hAes
      simp [Ticker.detach, TimerEvent.remove]
    | destroy =>
      simp only [TickerState.fires, TickerState.step]
      refine ih _ ?_ hAes
      simp [Ticker.destruct, Ticker.detach, TimerEvent.remove]
    | fire now =>
      cases hp : s.pending with
      | none =>
        simp only [TickerState.fires, TickerState.step, hp, Option.isSome_none,
          Bool.false_eq_true, if_false]
        exact ih _ hf hAes
      | some T =>
        cases hfun : s.function with
        | none =>
          simp only [TickerState.fires, TickerState.step, hp, Option.isSome_some,
            if_true, Ticker.handler, TimerEvent.remove, hfun]
          exact ih _ (by simp [hfun]) hAes
        | some g =>
          have hg : g ≠ cb := fun h => hf (h ▸ hfun)
          simp only [TickerState.fires, TickerState.step, hp, Option.isSome_some,
            if_true, Ticker.handler, TimerEvent.remove, hfun,
            TimerEvent.insert_absolute]
          intro hmem
          rcases List.mem_cons.mp hmem with h | h
          · exact hg h.symm
          · exact ih _ (by simp [hfun, hg]) hAes h

/-- In every reachable state, a pending hardware alarm exists exactly when
the stored callable is non-empty (the spec's attach/pending invariant). -/
theorem reaches_pending_iff_function (b : Bool) (s : TickerState)
    (h : Reaches (Ticker.init b) s) :
    s.pending.isSome ↔ s.function.isSome := by
  induction h with
  | refl => simp [Ticker.init]
  | step s2 e hR ih =>
    cases e with
    | attachUs f t now =>
      simp [TickerState.step, Ticker.attach_us, TimerEvent.insert_absolute,
        TimerEvent.remove]
    | detach => simp [TickerState.step, Ticker.detach, TimerEvent.remove]
    | destroy =>
      simp [TickerState.step, Ticker.destruct, Ticker.detach, TimerEvent.remove]
    | fire now =>
      cases hp : s2.pending with
      | none =>
        simp only [TickerState.step, hp, Option.isSome_none, Bool.false_eq_true,
          if_false]
        simpa [hp] using ih
      | some T =>
        have hfs : s2.function.isSome := ih.mp (by simp [hp])
        obtain ⟨g, hg⟩ := Option.isSome_iff_exists.mp hfs
        simp [TickerState.step, hp, Ticker.handler, TimerEvent.remove, hg,
          TimerEvent.insert_absolute]
  | attachSeconds s2 s3 f t now hR hEq ih =>
    obtain ⟨us, -, hs3⟩ := Option.map_eq_some'.mp hEq
    subst hs3
    simp [Ticker.attach_us, TimerEvent.insert_absolute, TimerEvent.remove]

/-- A ticker constructed on the low-power tick source keeps
`lock_deepsleep` false and never holds a deep-sleep lock, in every
reachable state. -/
theorem reaches_lowpower_no_lock (s : TickerState)
    (h : Reaches (Ticker.init true) s) :
    s.lock_deepsleep = false ∧ s.deepsleepLocked = false := by
  induction h with
  | refl => simp [Ticker.init]
  | step s2 e hR ih =>
    cases e with
    | attachUs f t now =>
      simp [TickerState.step, Ticker.attach_us, TimerEvent.insert_absolute,
        TimerEvent.remove, ih.1, ih.2]
    | detach => simp [TickerState.step, Ticker.detach, TimerEvent.remove, ih.1]
    | destroy =>
      simp [TickerState.step, Ticker.destruct, Ticker.detach, TimerEvent.remove,
        ih.1]
    | fire now =>
      cases hp : s2.pending with
      | none =>
        simpa only [TickerState.step, hp, Option.isSome_none, Bool.false_eq_true,
          if_false] using ih
      | some T =>
        cases hg : s2.function with
        | none =>
          simp only [TickerState.step, hp, Option.isSome_some, if_true,
            Ticker.handler, TimerEvent.remove, hg]
          exact ih
        | some g =>
          simp only [TickerState.step, hp, Option.isSome_some, if_true,
            Ticker.handler, TimerEvent.remove, hg, TimerEvent.insert_absolute]
          exact ih
  | attachSeconds s2 s3 f t now hR hEq ih =>
    obtain ⟨us, -, hs3⟩ := Option.map_eq_some'.mp hEq
    subst hs3
    simp [Ticker.attach_us, TimerEvent.insert_absolute, TimerEvent.remove,
      ih.1, ih.2]

/-- C1: for every fire of an attached Ticker, `handler` first re-arms the
alarm for `now + delay` and only then invokes the stored callable (the
state returned alongside the callable — the one in force when the callable
runs — already carries the re-armed pending alarm); a callback that calls
`detach()` on itself leaves no pending alarm, so no fire occurs strictly
after that `detach()` returns (along any attach-free continuation nothing
is invoked); and if `function` is empty at fire time, `handler` takes the
re-arm skip / no-op path and invokes nothing. -/
theorem ticker_handler_rearm_before_invoke (s : TickerState) (now : ℕ) :
    (Ticker.handler s now).2 = s.function
    ∧ (s.function.isSome →
        (Ticker.handler s now).1 = TimerEvent.insert_absolute s (now + s.delay))
    ∧ (s.function = none → Ticker.handler s now = (s, none))
    ∧ (Ticker.detach (Ticker.handler s now).1).1.pending = none
    ∧ ∀ es : List Step, (∀ e ∈ es, Step.isAttach e = false) →
        TickerState.fires (Ticker.detach (Ticker.handler s now).1).1 es = [] := by
  refine ⟨?_, ?_, ?_, ?_, ?_⟩
  · cases hg : s.function <;> simp [Ticker.handler, hg]
  · intro hs
    obtain ⟨g, hg⟩ := Option.isSome_iff_exists.mp hs
    simp [Ticker.handler, hg]
  · intro hg; simp [Ticker.handler, hg]
  · simp [Ticker.detach, TimerEvent.remove]
  · intro es hA
    exact fires_nil_of_cleared es _ (by simp [Ticker.detach, TimerEvent.remove])
      (by simp [Ticker.detach, TimerEvent.remove]) hA

/-- Witness for C1 at a concrete armed ticker: delay 10, armed at time 0,
fired at time 10; the callback runs with the alarm already re-armed for
time 20, and after an in-callback detach an attach-free continuation
invokes nothing. -/
theorem ticker_handler_rearm_before_invoke_witness :
    (Ticker.handler (Ticker.attach_us (Ticker.init false) (Callback.fn 1) 10 0) 10).1
      = TimerEvent.insert_absolute
          (Ticker.attach_us (Ticker.init false) (Callback.fn 1) 10 0) 20
    ∧ TickerState.fires
        (Ticker.detach
          (Ticker.handler (Ticker.attach_us (Ticker.init false) (Callback.fn 1) 10 0) 10).1).1
        [Step.fire 30, Step.detach] = [] := by
  have h := ticker_handler_rearm_before_invoke
    (Ticker.attach_us (Ticker.init false) (Callback.fn 1) 10 0) 10
  exact ⟨h.2.1 (by decide), h.2.2.2.2 [Step.fire 30, Step.detach] (by decide)⟩

/-- C3: `attach_us` stores the callable into `function` (replacing any
prior one), stores the interval into `delay`, and inserts this instance
into the pending-alarm structure at `now + delay` (any previous pending
insertion having been removed, the single slot now holds exactly this
time). -/
theorem ticker_attach_us_stores_and_schedules (s : TickerState) (f : Callback)
    (t now : ℕ) :
    (Ticker.attach_us s f t now).function = some f
    ∧ (Ticker.attach_us s f t now).delay = t
    ∧ (Ticker.attach_us s f t now).pending = some (now + t) :=
  ⟨rfl, rfl, rfl⟩

/-- C4: `detach` is idempotent — a second call returns the same state and
performs no deep-sleep release (no double-release) — and `detach` on a
never-attached, freshly constructed ticker is a harmless no-op leaving no
pending alarm and releasing nothing. -/
theorem ticker_detach_idempotent (s : TickerState) (b : Bool) :
    Ticker.detach (Ticker.detach s).1 = ((Ticker.detach s).1, false)
    ∧ (Ticker.detach s).1.pending = none
    ∧ (Ticker.detach s).1.function = none
    ∧ (Ticker.detach (Ticker.init b)).1.pending = none
    ∧ (Ticker.detach (Ticker.init b)).2 = false :=
  ⟨rfl, rfl, rfl, rfl, rfl⟩

/-- C5: the destructor performs `detach` before the instance is released,
so destruction while attached removes any pending hardware alarm: the
final state has no pending alarm and no stored callable. -/
theorem ticker_destructor_implicit_detach (s : TickerState) :
    Ticker.destruct s = (Ticker.detach s).1
    ∧ (Ticker.destruct s).pending = none
    ∧ (Ticker.destruct s).function = none :=
  ⟨rfl, rfl, rfl⟩

/-- C6: `attach_us (cb2, d2)` on a ticker already attached with
`(cb1, d1)` silently replaces callback and interval: the stored callable is
`cb2` and no longer `cb1`, the single pending slot holds `now + d2` (the
previous alarm was removed before the new insertion), the next fire time is
not `now + d1` when the intervals differ, and `cb1` is never invoked again
along any continuation that does not re-attach it. -/
theorem ticker_attach_us_replaces_previous (s : TickerState)
    (cb1 cb2 : Callback) (d1 d2 now : ℕ)
    (h1 : s.function = some cb1) (hd : s.delay = d1) (hne : cb1 ≠ cb2) :
    (Ticker.attach_us s cb2 d2 now).function = some cb2
    ∧ (Ticker.attach_us s cb2 d2 now).function ≠ some cb1
    ∧ (Ticker.attach_us s cb2 d2 now).pending = some (now + d2)
    ∧ (d1 ≠ d2 → (Ticker.attach_us s cb2 d2 now).pending ≠ some (now + d1))
    ∧ ∀ es : List Step, (∀ e ∈ es, Step.attaches cb1 e = false) →
        cb1 ∉ TickerState.fires (Ticker.attach_us s cb2 d2 now) es := by
  refine ⟨rfl, ?_, rfl, ?_, ?_⟩
  · simp [Ticker.attach_us, TimerEvent.insert_absolute, TimerEvent.remove]
    exact fun h => hne h.symm
  · intro hdd h
    have : now + d2 = now + d1 := by
      simpa [Ticker.attach_us, TimerEvent.insert_absolute, TimerEvent.remove]
        using h
    omega
  · intro es hA
    refine not_mem_fires cb1 es _ ?_ hA
    simp [Ticker.attach_us, TimerEvent.insert_absolute, TimerEvent.remove]
    exact fun h => hne h.symm

/-- Witness for C6: a ticker armed with callback 1 and interval 3 is
re-attached with callback 2 and interval 7 at time 100; the pending alarm
is for time 107, and callback 1 is not invoked across two subsequent
fires. -/
theorem ticker_attach_us_replaces_previous_witness :
    (Ticker.attach_us (Ticker.attach_us (Ticker.init false) (Callback.fn 1) 3 0)
      (Callback.fn 2) 7 100).pending = some 107
    ∧ Callback.fn 1 ∉ TickerState.fires
        (Ticker.attach_us (Ticker.attach_us (Ticker.init false) (Callback.fn 1) 3 0)
          (Callback.fn 2) 7 100)
        [Step.fire 107, Step.fire 114] := by
  have h := ticker_attach_us_replaces_previous
    (Ticker.attach_us (Ticker.init false) (Callback.fn 1) 3 0)
    (Callback.fn 1) (Callback.fn 2) 3 7 100 rfl rfl (by decide)
  exact ⟨h.2.2.1, h.2.2.2.2 [Step.fire 107, Step.fire 114] (by decide)⟩

/-- C7: in every state reachable by any sequence of attach, attach_us,
detach, fires, and destruction, a pending hardware alarm exists if and only
if the ticker is attached (`function` non-empty); and an attach puts
exactly one pending alarm (the single per-instance slot, holding
`now + delay`) in place. -/
theorem ticker_pending_iff_attached (b : Bool) (s : TickerState)
    (h : Reaches (Ticker.init b) s) :
    (s.pending.isSome ↔ s.function.isSome)
    ∧ ∀ (f : Callback) (t now : ℕ),
        (Ticker.attach_us s f t now).pending = some (now + t) :=
  ⟨reaches_pending_iff_function b s h, fun _ _ _ => rfl⟩

/-- Witness for C7 at a concrete reachable state: after an `attach_us`
step from a freshly constructed regular-source ticker, the pending alarm
and the stored callable are both present. -/
theorem ticker_pending_iff_attached_witness :
    ((TickerState.step (Ticker.init false) (Step.attachUs (Callback.fn 0) 5 2)).1.pending.isSome
      ↔ (TickerState.step (Ticker.init false) (Step.attachUs (Callback.fn 0) 5 2)).1.function.isSome) :=
  (ticker_pending_iff_attached false _
    (Reaches.step _ _ _ (Reaches.refl _))).1

/-- C8: the deprecated member-function overloads are pure syntactic sugar:
`attach(obj, method, t)` equals `attach(callback(obj, method), t)` and
`attach_us(obj, method, t)` equals
`attach_us(Callback<void()>(obj, method), t)`, with the bound pair in the
same opaque-callable form and no additional state. -/
theorem ticker_member_overloads_pure_sugar (s : TickerState) (obj meth : ℕ)
    (t : ℚ) (ut now : ℕ) :
    Ticker.attach_member s obj meth t now
      = Ticker.attach s (callback obj meth) t now
    ∧ Ticker.attach_us_member s obj meth ut now
      = Ticker.attach_us s (Callback.member obj meth) ut now
    ∧ callback obj meth = Callback.member obj meth :=
  ⟨rfl, rfl, rfl⟩

/-- C9: a regular-source ticker (constructed with `lock_deepsleep` set)
holds a deep-sleep lock after being armed by `attach_us`; `detach` releases
any deep-sleep lock held on the ticker's behalf; and a low-power-source
ticker never holds a deep-sleep lock in any reachable state. -/
theorem ticker_deepsleep_lock_discipline :
    (∀ (s : TickerState) (f : Callback) (t now : ℕ), s.lock_deepsleep = true →
        (Ticker.attach_us s f t now).deepsleepLocked = true)
    ∧ (∀ (f : Callback) (t now : ℕ),
        (Ticker.attach_us (Ticker.init false) f t now).deepsleepLocked = true)
    ∧ (∀ s : TickerState, (Ticker.detach s).1.deepsleepLocked = false)
    ∧ (∀ s : TickerState, Reaches (Ticker.init true) s →
        s.deepsleepLocked = false) := by
  refine ⟨?_, ?_, ?_, ?_⟩
  · intro s f t now hlock
    simp [Ticker.attach_us, TimerEvent.insert_absolute, TimerEvent.remove, hlock]
  · intro f t now
    simp [Ticker.attach_us, TimerEvent.insert_absolute, TimerEvent.remove,
      Ticker.init]
  · intro s; rfl
  · intro s h; exact (reaches_lowpower_no_lock s h).2

/-- Witness for C9: arming a freshly constructed regular-source ticker
locks deep sleep; a freshly constructed (and once-fired) low-power ticker
holds no lock; detach on the armed regular ticker releases it. -/
theorem ticker_deepsleep_lock_discipline_witness :
    (Ticker.attach_us (Ticker.init false) (Callback.fn 3) 100 0).deepsleepLocked = true
    ∧ (Ticker.detach (Ticker.attach_us (Ticker.init false) (Callback.fn 3) 100 0)).1.deepsleepLocked = false
    ∧ (TickerState.step (Ticker.init true) (Step.attachUs (Callback.fn 3) 100 0)).1.deepsleepLocked = false := by
  have h := ticker_deepsleep_lock_discipline
  exact ⟨h.1 (Ticker.init false) (Callback.fn 3) 100 0 rfl,
    h.2.2.1 (Ticker.attach_us (Ticker.init false) (Callback.fn 3) 100 0),
    h.2.2.2 _ (Reaches.step _ _ _ (Reaches.refl _))⟩

/-- Rounding a rational that is already an integer returns that integer. -/
theorem rndHalfEven_intCast (n : ℤ) : rndHalfEven ((n : ℤ) : ℚ) = n := by
  norm_num [rndHalfEven]

/-- Characterization of `rnd24` on a positive input whose binade is known:
if `2 ^ (E + 23) ≤ q < 2 ^ (E + 24)` then `rnd24 q` rounds the significand
`q / 2 ^ E` to an integer, ties to even, and rescales. -/
theorem rnd24_pos_eval {q : ℚ} {E n : ℤ}
    (hlo : (2 : ℚ) ^ (E + 23) ≤ q) (hhi : q < 2 ^ (E + 24))
    (hn : rndHalfEven (q / 2 ^ E) = n) :
    rnd24 q = n * 2 ^ E := by
  have hq0 : 0 < q := lt_of_lt_of_le (by positivity) hlo
  have hcast : ((2 : ℕ) : ℚ) = (2 : ℚ) := by norm_num
  have h1 : E + 23 ≤ Int.log 2 q :=
    (Int.zpow_le_iff_le_log (by norm_num) hq0).mp (by rw [hcast]; exact hlo)
  have h2 : Int.log 2 q < E + 24 :=
    (Int.lt_zpow_iff_log_lt (by norm_num) hq0).mp (by rw [hcast]; exact hhi)
  have hlog : Int.log 2 q = E + 23 := by omega
  simp only [rnd24, if_neg hq0.ne', abs_of_pos hq0, hlog,
    if_neg (not_lt.mpr hq0.le), one_mul]
  have hE : E + 23 - 23 = E := by omega
  rw [hE, hn]

/-- Characterization of `rnd24` on a negative input, via the binade of its
absolute value. -/
theorem rnd24_neg_eval {q : ℚ} {E n : ℤ}
    (hq : q < 0)
    (hlo : (2 : ℚ) ^ (E + 23) ≤ -q) (hhi : -q < 2 ^ (E + 24))
    (hn : rndHalfEven (-q / 2 ^ E) = n) :
    rnd24 q = -(n * 2 ^ E) := by
  have hq0 : 0 < -q := neg_pos.mpr hq
  have hcast : ((2 : ℕ) : ℚ) = (2 : ℚ) := by norm_num
  have h1 : E + 23 ≤ Int.log 2 (-q) :=
    (Int.zpow_le_iff_le_log (by norm_num) hq0).mp (by rw [hcast]; exact hlo)
  have h2 : Int.log 2 (-q) < E + 24 :=
    (Int.lt_zpow_iff_log_lt (by norm_num) hq0).mp (by rw [hcast]; exact hhi)
  have hlog : Int.log 2 (-q) = E + 23 := by omega
  simp only [rnd24, if_neg hq.ne, abs_of_neg hq, hlog, if_pos hq]
  have hE : E + 23 - 23 = E := by omega
  rw [hE, hn]
  ring

/-- The float value `4295 / 8192` (mantissa `8796160`, exponent `-24`) is
representable in single precision. -/
theorem rnd24_fix_t2 : rnd24 (4295 / 8192 : ℚ) = 4295 / 8192 := by
  have hn : rndHalfEven ((4295 / 8192 : ℚ) / 2 ^ (-24 : ℤ)) = 8796160 := by
    have harg : (4295 / 8192 : ℚ) / 2 ^ (-24 : ℤ) = ((8796160 : ℤ) : ℚ) := by
      norm_num
    rw [harg, rndHalfEven_intCast]
  have h := rnd24_pos_eval (q := 4295 / 8192) (E := -24) (n := 8796160)
    (by norm_num) (by norm_num) hn
  rw [h]; norm_num

/-- Rounding the scaled significand of the product `4295/8192 × 1000000`:
the fractional part `7/8` exceeds one half, so it rounds up. -/
theorem rndHalfEven_prod_t2 : rndHalfEven ((67109375 : ℚ) / 8) = 8388672 := by
  have hfl : ⌊(67109375 : ℚ) / 8⌋ = 8388671 := by norm_num
  norm_num [rndHalfEven, hfl]

/-- Single-precision product of the float `4295 / 8192` with `1000000`:
the exact product `524291.9921875` rounds up to the integer `524292`. -/
theorem mulF32_t2 : mulF32 (4295 / 8192 : ℚ) 1000000 = 524292 := by
  have harg : (4295 / 8192 : ℚ) * 1000000 = 67109375 / 128 := by norm_num
  have hn : rndHalfEven ((67109375 / 128 : ℚ) / 2 ^ (-4 : ℤ)) = 8388672 := by
    have hdiv : (67109375 / 128 : ℚ) / 2 ^ (-4 : ℤ) = 67109375 / 8 := by norm_num
    rw [hdiv, rndHalfEven_prod_t2]
  have h := rnd24_pos_eval (q := 67109375 / 128) (E := -4) (n := 8388672)
    (by norm_num) (by norm_num) hn
  rw [mulF32, harg, h]; norm_num

/-- Single-precision product of `5.0` with `1000000`: exact. -/
theorem mulF32_five : mulF32 (5 : ℚ) 1000000 = 5000000 := by
  have harg : (5 : ℚ) * 1000000 = 5000000 := by norm_num
  have hn : rndHalfEven ((5000000 : ℚ) / 2 ^ (-1 : ℤ)) = 10000000 := by
    have hdiv : (5000000 : ℚ) / 2 ^ (-1 : ℤ) = ((10000000 : ℤ) : ℚ) := by norm_num
    rw [hdiv, rndHalfEven_intCast]
  have h := rnd24_pos_eval (q := 5000000) (E := -1) (n := 10000000)
    (by norm_num) (by norm_num) hn
  rw [mulF32, harg, h]; norm_num

/-- The float value `-2 ^ (-21)` is representable in single precision. -/
theorem rnd24_fix_t1 : rnd24 (-(1 / 2097152) : ℚ) = -(1 / 2097152) := by
  have hn : rndHalfEven (-(-(1 / 2097152) : ℚ) / 2 ^ (-44 : ℤ)) = 8388608 := by
    have harg : (-(-(1 / 2097152) : ℚ)) / 2 ^ (-44 : ℤ) = ((8388608 : ℤ) : ℚ) := by
      norm_num
    rw [harg, rndHalfEven_intCast]
  have h := rnd24_neg_eval (q := -(1 / 2097152)) (E := -44) (n := 8388608)
    (by norm_num) (by norm_num) (by norm_num) hn
  rw [h]; norm_num

/-- Single-precision product of the float `-2 ^ (-21)` with `1000000`:
the exact product `-15625/32768 ≈ -0.4768` is representable, so no rounding
occurs. -/
theorem mulF32_t1 : mulF32 (-(1 / 2097152) : ℚ) 1000000 = -(15625 / 32768) := by
  have harg : (-(1 / 2097152) : ℚ) * 1000000 = -(15625 / 32768) := by norm_num
  have hn : rndHalfEven (-(-(15625 / 32768) : ℚ) / 2 ^ (-25 : ℤ)) = 16000000 := by
    have hdiv : (-(-(15625 / 32768) : ℚ)) / 2 ^ (-25 : ℤ) = ((16000000 : ℤ) : ℚ) := by
      norm_num
    rw [hdiv, rndHalfEven_intCast]
  have h := rnd24_neg_eval (q := -(15625 / 32768)) (E := -25) (n := 16000000)
    (by norm_num) (by norm_num) (by norm_num) hn
  rw [mulF32, harg, h]; norm_num

/-- Truncation toward zero is non-negative exactly when the value exceeds
`-1` (values in `(-1, 0)` truncate to `0`). -/
theorem truncZ_nonneg_iff (q : ℚ) : 0 ≤ truncZ q ↔ -1 < q := by
  rw [truncZ]
  split_ifs with h
  · constructor
    · intro _; linarith
    · intro _; exact Int.floor_nonneg.mpr h
  · push_neg at h
    rw [neg_nonneg]
    constructor
    · intro hf
      by_contra hc
      push_neg at hc
      have h1 : ((1 : ℤ) : ℚ) ≤ -q := by push_cast; linarith
      have := Int.le_floor.mpr h1
      omega
    · intro hq1
      have h1 : -q < ((1 : ℤ) : ℚ) := by push_cast; linarith
      have := Int.floor_lt.mpr h1
      omega

/-- The float-to-`uint64_t` conversion is defined exactly when the value
truncated toward zero lands in the `uint64_t` range. -/
theorem toUs_isSome_iff (q : ℚ) :
    (toUs q).isSome = true ↔ (-1 < q ∧ truncZ q < 2 ^ 64) := by
  rw [toUs]
  split_ifs with h
  · simp only [Option.isSome_some, true_iff]
    exact ⟨(truncZ_nonneg_iff q).mp h.1, h.2⟩
  · simp only [Option.isSome_none, Bool.false_eq_true, false_iff]
    intro hc
    exact h ⟨(truncZ_nonneg_iff q).mpr hc.1, hc.2⟩

/-- Conversion of the concrete value `524292`. -/
theorem toUs_524292 : toUs (524292 : ℚ) = some 524292 := by
  have h : truncZ (524292 : ℚ) = 524292 := by
    rw [truncZ, if_pos (by norm_num)]; norm_num
  rw [toUs, h, if_pos (by decide)]
  decide

/-- Conversion of the concrete value `5000000`. -/
theorem toUs_5000000 : toUs (5000000 : ℚ) = some 5000000 := by
  have h : truncZ (5000000 : ℚ) = 5000000 := by
    rw [truncZ, if_pos (by norm_num)]; norm_num
  rw [toUs, h, if_pos (by decide)]
  decide

/-- Conversion of the concrete negative value `-15625/32768`: truncation
toward zero gives `0`, which is representable, so the conversion is
defined. -/
theorem toUs_neg_small : toUs (-(15625 / 32768) : ℚ) = some 0 := by
  have h : truncZ (-(15625 / 32768) : ℚ) = 0 := by
    rw [truncZ, if_neg (by norm_num)]
    norm_num
  rw [toUs, h, if_pos (by decide)]
  decide

/-- Exact truncation of the product `4295/8192 × 1000000`. -/
theorem floor_exact_t2 : ⌊(4295 / 8192 : ℚ) * 1000000⌋ = 524291 := by
  norm_num

/-- When the float-to-`uint64_t` conversion of a value succeeds, the result
is that value truncated toward zero. -/
theorem toUs_eq_some_imp (q : ℚ) (us : ℕ) (h : toUs q = some us) :
    (us : ℤ) = truncZ q := by
  rw [toUs] at h
  by_cases hc : 0 ≤ truncZ q ∧ truncZ q < 2 ^ 64
  · rw [if_pos hc] at h
    have hus : us = (truncZ q).toNat := (Option.some_inj.mp h).symm
    rw [hus, Int.toNat_of_nonneg hc.1]
  · rw [if_neg hc] at h
    cases h

/-- C2 counterexample: at the representable non-negative float
`t = 4295/8192` the exact product `t × 1000000 = 524291.9921875` truncates
to `524291`, but `attach` invokes `attach_us` with `524292`, because the
single-precision product rounds up before the truncation. -/
theorem ticker_attach_exact_truncation_counterexample :
    Float32Repr (4295 / 8192 : ℚ)
    ∧ (0 : ℚ) ≤ 4295 / 8192
    ∧ ⌊(4295 / 8192 : ℚ) * 1000000⌋ = 524291
    ∧ Ticker.attach (Ticker.init false) (Callback.fn 0) (4295 / 8192) 0
        = some (Ticker.attach_us (Ticker.init false) (Callback.fn 0) 524292 0)
    ∧ Ticker.attach (Ticker.init false) (Callback.fn 0) (4295 / 8192) 0
        ≠ some (Ticker.attach_us (Ticker.init false) (Callback.fn 0) 524291 0) := by
  refine ⟨rnd24_fix_t2, by norm_num, floor_exact_t2, ?_, ?_⟩
  · rw [Ticker.attach, mulF32_t2, toUs_524292]
    rfl
  · rw [Ticker.attach, mulF32_t2, toUs_524292]
    decide

/-- C2 (amended): `attach(f, t)` forwards `f` to `attach_us` with the
interval computed as the single-precision product `t * 1000000.0f`
truncated to the integer microsecond domain (not the exact real product);
for `t = 5.0` the product is exact and `attach_us` receives exactly
`5000000` microseconds. -/
theorem ticker_attach_forwards_rounded_product (s : TickerState) (f : Callback)
    (t : ℚ) (now us : ℕ) (h : toUs (mulF32 t 1000000) = some us) :
    Ticker.attach s f t now = some (Ticker.attach_us s f us now)
    ∧ (us : ℤ) = truncZ (rnd24 (t * 1000000))
    ∧ toUs (mulF32 5 1000000) = some 5000000 := by
  refine ⟨?_, toUs_eq_some_imp _ us h, ?_⟩
  · rw [Ticker.attach, h]
    rfl
  · rw [mulF32_five]
    exact toUs_5000000

/-- Witness for C2 (amended) at Scenario A: attaching with `t = 5.0`
seconds invokes `attach_us` with `5000000` microseconds. -/
theorem ticker_attach_forwards_rounded_product_witness :
    Ticker.attach (Ticker.init false) (Callback.fn 7) 5 0
      = some (Ticker.attach_us (Ticker.init false) (Callback.fn 7) 5000000 0) := by
  have h5 : toUs (mulF32 (5 : ℚ) 1000000) = some 5000000 := by
    rw [mulF32_five]; exact toUs_5000000
  exact (ticker_attach_forwards_rounded_product (Ticker.init false)
    (Callback.fn 7) 5 0 5000000 h5).1

/-- C10 counterexample: at the representable float `t = -2 ^ (-21)` the
single-precision product is `-15625/32768`, which is negative, yet the
conversion to `uint64_t` is well-defined (truncation toward zero gives `0`,
which is representable) — so "well-defined only when the product is
non-negative" fails. -/
theorem ticker_float_conversion_negative_defined_counterexample :
    Float32Repr (-(1 / 2097152) : ℚ)
    ∧ mulF32 (-(1 / 2097152) : ℚ) 1000000 < 0
    ∧ toUs (mulF32 (-(1 / 2097152) : ℚ) 1000000) = some 0 := by
  refine ⟨rnd24_fix_t1, ?_, ?_⟩
  · rw [mulF32_t1]; norm_num
  · rw [mulF32_t1]; exact toUs_neg_small

/-- C10 (amended): `attach` computes `t * 1000000.0f` in single precision
before converting to `uint64_t`; the conversion is well-defined exactly
when the truncated product is representable, i.e. when the product exceeds
`-1` and its truncation is below `2 ^ 64` (so for every non-negative
in-range product, and additionally for products in `(-1, 0)`, which
convert to `0`); when defined, the microsecond count passed to `attach_us`
is the truncation of the rounded single-precision product, which at
`t = 4295/8192` differs from the exact truncation of `t × 1000000`. -/
theorem ticker_float_conversion_domain (q t : ℚ) (us : ℕ) :
    ((toUs q).isSome = true ↔ (-1 < q ∧ truncZ q < 2 ^ 64))
    ∧ (toUs (mulF32 t 1000000) = some us →
        (us : ℤ) = truncZ (rnd24 (t * 1000000)))
    ∧ truncZ (mulF32 (4295 / 8192 : ℚ) 1000000)
        ≠ truncZ ((4295 / 8192 : ℚ) * 1000000) := by
  refine ⟨toUs_isSome_iff q, fun h => toUs_eq_some_imp _ us h, ?_⟩
  have h1 : truncZ (524292 : ℚ) = 524292 := by
    rw [truncZ, if_pos (by norm_num)]; norm_num
  have h2 : truncZ ((4295 / 8192 : ℚ) * 1000000) = 524291 := by
    rw [truncZ, if_pos (by norm_num)]; exact floor_exact_t2
  rw [mulF32_t2, h1, h2]
  decide

/-- Witness for C10 (amended): the conversion is defined at the value `2`,
and the count forwarded for `t = 5.0` is the truncation of the rounded
product `5000000`. -/
theorem ticker_float_conversion_domain_witness :
    (toUs (2 : ℚ)).isSome = true
    ∧ ((5000000 : ℕ) : ℤ) = truncZ (rnd24 ((5 : ℚ) * 1000000)) := by
  have h := ticker_float_conversion_domain 2 5 5000000
  refine ⟨h.1.mpr ⟨by norm_num, ?_⟩,
    h.2.1 (by rw [mulF32_five]; exact toUs_5000000)⟩
  rw [truncZ, if_pos (by norm_num)]
  norm_num
